import Mathlib

/-!
Verification of the adjacency-list graph core (`src/pathfinding/src/graph.rs`).

The Rust code stores a graph as `BTreeMap<Vertex<V>, BTreeMap<Vertex<V>, E>>`.
A `BTreeMap` is modelled as a list of key-value pairs kept strictly sorted by
key (`keysSorted`); the operations `mapGet`, `mapInsert`, `mapRemove` model
`BTreeMap::get`, `BTreeMap::insert` and `BTreeMap::remove`.  Fallible Rust
code (`unwrap` in `into_mermaid`) is modelled with `Option`.
-/

set_option autoImplicit false

universe u v

variable {α : Type u} {β : Type v}

/-- Model of `std::collections::BTreeMap`: an association list, sorted by key
in every state a real `BTreeMap` can be in (`keysSorted`). -/
abbrev BTreeMap (α : Type u) (β : Type v) := List (α × β)

/-- `BTreeMap::get`: value of the first entry with the given key. -/
def mapGet [DecidableEq α] (k : α) : BTreeMap α β → Option β
  | [] => none
  | (k', v') :: rest => if k = k' then some v' else mapGet k rest

/-- `BTreeMap::contains_key`. -/
def containsKey [DecidableEq α] (k : α) (l : BTreeMap α β) : Bool :=
  (mapGet k l).isSome

/-- `BTreeMap::insert`: replace the entry at the key, or insert the pair at
its sorted position. -/
def mapInsert [LinearOrder α] (k : α) (v : β) : BTreeMap α β → BTreeMap α β
  | [] => [(k, v)]
  | (k', v') :: rest =>
    if k < k' then (k, v) :: (k', v') :: rest
    else if k = k' then (k, v) :: rest
    else (k', v') :: mapInsert k v rest

/-- `BTreeMap::remove`: drop the first entry with the given key. -/
def mapRemove [DecidableEq α] (k : α) : BTreeMap α β → BTreeMap α β
  | [] => []
  | (k', v') :: rest => if k = k' then rest else (k', v') :: mapRemove k rest

/-- Keys appear in strictly increasing order — the invariant every value of
Rust type `BTreeMap` satisfies. -/
def keysSorted [LinearOrder α] (l : BTreeMap α β) : Prop :=
  l.Pairwise (fun p q => p.1 < q.1)

instance [LinearOrder α] (l : BTreeMap α β) : Decidable (keysSorted l) :=
  List.instDecidablePairwise l

/-- Concatenation of a list of strings, in order. -/
def strConcat : List String → String
  | [] => ""
  | s :: rest => s ++ strConcat rest



/-- `Vertex<V>` from `graph.rs`: a wrapper around a vertex label. -/
structure Vertex (V : Type u) where
  name : V
deriving Repr

/-- `Vertex::new`. -/
def Vertex.new {V : Type u} (name : V) : Vertex V :=
  { name := name }

instance {V : Type u} [LinearOrder V] : LinearOrder (Vertex V) :=
  LinearOrder.lift' Vertex.name fun a b h => by
    cases a
    cases b
    cases h
    rfl

/-- `AdjacencyList<V, E>` from `graph.rs`. -/
structure AdjacencyList (V : Type u) (E : Type v) where
  hash_map : BTreeMap (Vertex V) (BTreeMap (Vertex V) E)

namespace AdjacencyList

variable {V : Type u} {E : Type v} [LinearOrder V]

/-- `AdjacencyList::new`. -/
def new (hash_map : BTreeMap (Vertex V) (BTreeMap (Vertex V) E)) : AdjacencyList V E :=
  { hash_map := hash_map }

/-- The empty graph (`AdjacencyList::default`). -/
def empty : AdjacencyList V E :=
  { hash_map := [] }

/-- `get_neighbors`. -/
def get_neighbors (g : AdjacencyList V E) (vertex : Vertex V) : Option (BTreeMap (Vertex V) E) :=
  mapGet vertex g.hash_map

/-- `add_vertex`: insert the vertex with an empty edge set. -/
def add_vertex (g : AdjacencyList V E) (vertex : Vertex V) : AdjacencyList V E :=
  { hash_map := mapInsert vertex [] g.hash_map }

/-- `add_vertex_with_directed_edges`: set the vertex's edge set to exactly
`edges`. -/
def add_vertex_with_directed_edges (g : AdjacencyList V E) (vertex : Vertex V)
    (edges : BTreeMap (Vertex V) E) : AdjacencyList V E :=
  { hash_map := mapInsert vertex edges g.hash_map }

/-- `add_edge_undirected`: insert `a → b = w`; then insert `b → a = w`.  Each
endpoint that is absent is created via `add_vertex_with_directed_edges` with
the one-entry map, exactly as in the source. -/
def add_edge_undirected (g : AdjacencyList V E) (a b : Vertex V) (weight : E) :
    AdjacencyList V E :=
  let g1 : AdjacencyList V E :=
    match mapGet a g.hash_map with
    | some aEdges => { hash_map := mapInsert a (mapInsert b weight aEdges) g.hash_map }
    | none => g.add_vertex_with_directed_edges a [(b, weight)]
  match mapGet b g1.hash_map with
  | some bEdges => { hash_map := mapInsert b (mapInsert a weight bEdges) g1.hash_map }
  | none => g1.add_vertex_with_directed_edges b [(a, weight)]

/-- `add_vertex_with_undirected_edges`: one `add_edge_undirected` call per
entry of `edges`, in the map's iteration order. -/
def add_vertex_with_undirected_edges (g : AdjacencyList V E) (vertex : Vertex V)
    (edges : BTreeMap (Vertex V) E) : AdjacencyList V E :=
  edges.foldl (fun g p => g.add_edge_undirected vertex p.1 p.2) g

/-- `add_edge_directed`: insert `a → b = w` (creating `a` if needed), then
ensure `b` exists. -/
def add_edge_directed (g : AdjacencyList V E) (a b : Vertex V) (weight : E) :
    AdjacencyList V E :=
  let g1 : AdjacencyList V E :=
    match mapGet a g.hash_map with
    | some aEdges => { hash_map := mapInsert a (mapInsert b weight aEdges) g.hash_map }
    | none => g.add_vertex_with_directed_edges a [(b, weight)]
  if (mapGet b g1.hash_map).isSome then g1
  else g1.add_vertex_with_directed_edges b []

/-- The cleanup loop of `remove_vertex`: for each collected neighbor key, if
it is still a vertex, remove the entry keyed by `vertex` from its edge set. -/
def removeCleanup [DecidableEq (Vertex V)] (vertex : Vertex V) (ns : List (Vertex V))
    (m : BTreeMap (Vertex V) (BTreeMap (Vertex V) E)) :
    BTreeMap (Vertex V) (BTreeMap (Vertex V) E) :=
  ns.foldl
    (fun m n =>
      match mapGet n m with
      | some nEdges => mapInsert n (mapRemove vertex nEdges) m
      | none => m)
    m

/-- `remove_vertex`: collect `vertex`'s neighbor keys, remove the back-entry
keyed by `vertex` from each neighbor's edge set, then remove `vertex`. -/
def remove_vertex (g : AdjacencyList V E) (vertex : Vertex V) : AdjacencyList V E :=
  let m :=
    match mapGet vertex g.hash_map with
    | some edges => removeCleanup vertex (edges.map Prod.fst) g.hash_map
    | none => g.hash_map
  { hash_map := mapRemove vertex m }

/-- `toggle_vertex`: remove the vertex if present, else insert it with the
supplied default edges. -/
def toggle_vertex (g : AdjacencyList V E) (vertex : Vertex V)
    (edges : BTreeMap (Vertex V) E) : AdjacencyList V E :=
  if containsKey vertex g.hash_map then g.remove_vertex vertex
  else g.add_vertex_with_directed_edges vertex edges

/-- One line of `into_mermaid`, for the stored edge `v → n`; `none` models
the panic of `get_neighbors(neighbor).unwrap()` when `n` is not a vertex. -/
def mermaidLine [ToString V] (g : AdjacencyList V E) (v n : Vertex V) : Option String :=
  (g.get_neighbors n).map fun nEdges =>
    "\n    " ++ toString v.name ++ " " ++
      (if (mapGet v nEdges).isSome then "---" else "-->") ++ " " ++ toString n.name

/-- `into_mermaid`: the header line, then one line per stored edge entry in
iteration order; `none` models a panic at the first dangling edge target. -/
def into_mermaid [ToString V] (g : AdjacencyList V E) : Option String :=
  g.hash_map.foldl
    (fun acc p =>
      p.2.foldl (fun acc2 q => acc2.bind fun s => (mermaidLine g p.1 q.1).map (s ++ ·)) acc)
    (some "flowchart LR")

/-- The weight stored for the directed edge `a → b`, if any. -/
def edgeWeight (g : AdjacencyList V E) (a b : Vertex V) : Option E :=
  match g.get_neighbors a with
  | some es => mapGet b es
  | none => none

/-- `true` iff the directed edge `a → b` is stored. -/
def hasEdge (g : AdjacencyList V E) (a b : Vertex V) : Bool :=
  (g.edgeWeight a b).isSome

/-- All stored directed edge entries, as ordered pairs, in iteration order. -/
def edgePairs (g : AdjacencyList V E) : List (Vertex V × Vertex V) :=
  g.hash_map.flatMap fun p => p.2.map fun q => (p.1, q.1)

/-- Every vertex occurring as a key inside some edge set is an outer key. -/
def edgeClosed (g : AdjacencyList V E) : Prop :=
  ∀ p ∈ g.hash_map, ∀ q ∈ p.2, containsKey q.1 g.hash_map = true

instance (g : AdjacencyList V E) : Decidable (g.edgeClosed) := by
  unfold edgeClosed
  infer_instance

/-- Well-formedness: the outer map and every inner map are sorted — true of
every state a Rust `AdjacencyList` can be in, since `BTreeMap` keeps its keys
sorted. -/
def WF (g : AdjacencyList V E) : Prop :=
  keysSorted g.hash_map ∧ ∀ p ∈ g.hash_map, keysSorted p.2

instance (g : AdjacencyList V E) : Decidable (g.WF) := by
  unfold WF
  infer_instance

/-- The spec's description of bulk undirected insertion: invoke the
undirected-edge operation between `vertex` and each listed neighbor, one
pair at a time, in the order the pairs are listed. -/
def addEdgesOneByOne (g : AdjacencyList V E) (vertex : Vertex V) :
    List (Vertex V × E) → AdjacencyList V E
  | [] => g
  | (n, w) :: rest => addEdgesOneByOne (g.add_edge_undirected vertex n w) vertex rest

/-- Spec-level description of one diagram line for the stored edge `v → n`:
the bidirectional connector exactly when `n`'s own edge set has an entry
keyed by `v`, the directed connector otherwise. -/
def mermaidLineTotal [ToString V] (g : AdjacencyList V E) (v n : Vertex V) : String :=
  "\n    " ++ toString v.name ++ " " ++
    (if g.hasEdge n v then "---" else "-->") ++ " " ++ toString n.name

/-- Spec-level description of the whole diagram: the header followed by one
line per stored directed edge entry, in store iteration order. -/
def mermaidSpec [ToString V] (g : AdjacencyList V E) : String :=
  "flowchart LR" ++ strConcat ((edgePairs g).map fun p => mermaidLineTotal g p.1 p.2)

/-- Strict lexicographic order on ordered vertex pairs. -/
def vertexPairLt (p q : Vertex V × Vertex V) : Prop :=
  p.1 < q.1 ∨ (p.1 = q.1 ∧ p.2 < q.2)

end AdjacencyList

/-- The mutation operations that never create a dangling edge target:
`add_vertex`, `add_edge_directed`, `add_edge_undirected` and
`add_vertex_with_undirected_edges`. -/
inductive SafeOp (V : Type u) (E : Type v) where
  | addVertex (v : Vertex V)
  | addEdgeDirected (a b : Vertex V) (w : E)
  | addEdgeUndirected (a b : Vertex V) (w : E)
  | addVertexWithUndirectedEdges (vertex : Vertex V) (edges : BTreeMap (Vertex V) E)

/-- Apply one mutation operation. -/
def applyOp {V : Type u} {E : Type v} [LinearOrder V] (g : AdjacencyList V E) :
    SafeOp V E → AdjacencyList V E
  | .addVertex v => g.add_vertex v
  | .addEdgeDirected a b w => g.add_edge_directed a b w
  | .addEdgeUndirected a b w => g.add_edge_undirected a b w
  | .addVertexWithUndirectedEdges v es => g.add_vertex_with_undirected_edges v es

/-- The graph state reached from the empty graph by a sequence of mutation
operations. -/
def runOps {V : Type u} {E : Type v} [LinearOrder V] (ops : List (SafeOp V E)) :
    AdjacencyList V E :=
  ops.foldl applyOp AdjacencyList.empty

/-- The spec's end-to-end scenario: vertices `1, 2, 3`, then
`add_edge_undirected(1, 2, 5)`, then `add_edge_directed(2, 3, 7)`. -/
def scenarioGraph : AdjacencyList Nat Nat :=
  (((((AdjacencyList.empty.add_vertex (Vertex.new 1)).add_vertex
    (Vertex.new 2)).add_vertex (Vertex.new 3)).add_edge_undirected (Vertex.new 1)
      (Vertex.new 2) 5).add_edge_directed (Vertex.new 2) (Vertex.new 3) 7)

section MapLemmas

variable [LinearOrder α]

theorem mapGet_mapInsert_self (k : α) (v : β) (l : BTreeMap α β) :
    mapGet k (mapInsert k v l) = some v := by
  induction l with
  | nil => simp [mapInsert, mapGet]
  | cons p rest ih =>
    obtain ⟨k', v'⟩ := p
    by_cases h1 : k < k'
    · simp [mapInsert, h1, mapGet]
    · by_cases h2 : k = k'
      · simp [mapInsert, h1, h2, mapGet]
      · simp [mapInsert, h1, h2, mapGet, ih]

theorem mapGet_mapInsert_ne {k'' k : α} (h : k'' ≠ k) (v : β) (l : BTreeMap α β) :
    mapGet k'' (mapInsert k v l) = mapGet k'' l := by
  induction l with
  | nil => simp [mapInsert, mapGet, h]
  | cons p rest ih =>
    obtain ⟨k', v'⟩ := p
    by_cases h1 : k < k'
    · simp [mapInsert, h1, mapGet, h]
    · by_cases h2 : k = k'
      · subst h2
        simp [mapInsert, h1, mapGet, h]
      · simp [mapInsert, h1, h2, mapGet, ih]

theorem mapGet_mapRemove_ne {k'' k : α} (h : k'' ≠ k) (l : BTreeMap α β) :
    mapGet k'' (mapRemove k l) = mapGet k'' l := by
  induction l with
  | nil => simp [mapRemove]
  | cons p rest ih =>
    obtain ⟨k', v'⟩ := p
    by_cases h1 : k = k'
    · subst h1
      simp [mapRemove, mapGet, h]
    · by_cases h2 : k'' = k'
      · simp [mapRemove, h1, mapGet, h2]
      · simp [mapRemove, h1, mapGet, h2, ih]

theorem mem_of_mapGet_eq_some {k : α} {x : β} {l : BTreeMap α β}
    (h : mapGet k l = some x) : (k, x) ∈ l := by
  induction l with
  | nil => simp [mapGet] at h
  | cons p rest ih =>
    obtain ⟨k', v'⟩ := p
    by_cases h1 : k = k'
    · subst h1
      simp [mapGet] at h
      simp [h]
    · simp [mapGet, h1] at h
      simp [ih h]

theorem containsKey_of_mem {k : α} {x : β} {l : BTreeMap α β}
    (h : (k, x) ∈ l) : containsKey k l = true := by
  induction l with
  | nil => simp at h
  | cons p rest ih =>
    obtain ⟨k', v'⟩ := p
    rcases List.mem_cons.mp h with h' | h'
    · simp only [Prod.mk.injEq] at h'
      simp [containsKey, mapGet, h'.1]
    · by_cases h1 : k = k'
      · simp [containsKey, mapGet, h1]
      · simpa [containsKey, mapGet, h1] using ih h'

theorem mem_mapInsert {p : α × β} {k : α} {v : β} {l : BTreeMap α β}
    (h : p ∈ mapInsert k v l) : p = (k, v) ∨ p ∈ l := by
  induction l with
  | nil => simpa [mapInsert] using h
  | cons q rest ih =>
    obtain ⟨k', v'⟩ := q
    by_cases h1 : k < k'
    · simp only [mapInsert, if_pos h1] at h
      rcases List.mem_cons.mp h with h' | h'
      · exact Or.inl h'
      · exact Or.inr h'
    · by_cases h2 : k = k'
      · simp only [mapInsert, if_neg h1, if_pos h2] at h
        rcases List.mem_cons.mp h with h' | h'
        · exact Or.inl h'
        · exact Or.inr (List.mem_cons_of_mem _ h')
      · simp only [mapInsert, if_neg h1, if_neg h2] at h
        rcases List.mem_cons.mp h with h' | h'
        · exact Or.inr (h' ▸ List.mem_cons_self _ _)
        · rcases ih h' with h'' | h''
          · exact Or.inl h''
          · exact Or.inr (List.mem_cons_of_mem _ h'')

theorem mem_mapRemove {p : α × β} {k : α} {l : BTreeMap α β}
    (h : p ∈ mapRemove k l) : p ∈ l := by
  induction l with
  | nil => simp [mapRemove] at h
  | cons q rest ih =>
    obtain ⟨k', v'⟩ := q
    by_cases h1 : k = k'
    · simp only [mapRemove, if_pos h1] at h
      exact List.mem_cons_of_mem _ h
    · simp only [mapRemove, if_neg h1] at h
      rcases List.mem_cons.mp h with h' | h'
      · exact h' ▸ List.mem_cons_self _ _
      · exact List.mem_cons_of_mem _ (ih h')

theorem keysSorted_mapInsert {l : BTreeMap α β} (k : α) (v : β)
    (h : keysSorted l) : keysSorted (mapInsert k v l) := by
  induction l with
  | nil => simp [mapInsert, keysSorted]
  | cons p rest ih =>
    obtain ⟨k', v'⟩ := p
    rw [keysSorted, List.pairwise_cons] at h
    obtain ⟨hall, hrest⟩ := h
    by_cases h1 : k < k'
    · rw [mapInsert, if_pos h1]
      rw [keysSorted, List.pairwise_cons]

      refine ⟨?_, ?_⟩
      · intro q hq
        rcases List.mem_cons.mp hq with h' | h'
        · exact h' ▸ h1
        · exact lt_trans h1 (hall q h')
      · rw [List.pairwise_cons]
        exact ⟨hall, hrest⟩
    · by_cases h2 : k = k'
      · rw [mapInsert, if_neg h1, if_pos h2]
        rw [keysSorted, List.pairwise_cons]
        exact ⟨fun q hq => h2 ▸ hall q hq, hrest⟩
      · rw [mapInsert, if_neg h1, if_neg h2]
        rw [keysSorted, List.pairwise_cons]
        refine ⟨?_, ih hrest⟩
        intro q hq
        rcases mem_mapInsert hq with h' | h'
        · subst h'
          exact lt_of_le_of_ne (not_lt.mp h1) (Ne.symm h2)
        · exact hall q h'

theorem keysSorted_mapRemove {l : BTreeMap α β} (k : α)
    (h : keysSorted l) : keysSorted (mapRemove k l) := by
  induction l with
  | nil => simpa [mapRemove] using h
  | cons p rest ih =>
    obtain ⟨k', v'⟩ := p
    rw [keysSorted, List.pairwise_cons] at h
    obtain ⟨hall, hrest⟩ := h
    by_cases h1 : k = k'
    · rw [mapRemove, if_pos h1]
      exact hrest
    · rw [mapRemove, if_neg h1]
      rw [keysSorted, List.pairwise_cons]
      exact ⟨fun q hq => hall q (mem_mapRemove hq), ih hrest⟩

theorem mapGet_eq_none_of_forall {k : α} {l : BTreeMap α β}
    (h : ∀ p ∈ l, p.1 ≠ k) : mapGet k l = none := by
  induction l with
  | nil => simp [mapGet]
  | cons p rest ih =>
    obtain ⟨k', v'⟩ := p
    have hk : k ≠ k' := fun he => h (k', v') (List.mem_cons_self _ _) he.symm
    rw [mapGet, if_neg hk]
    exact ih fun q hq => h q (List.mem_cons_of_mem _ hq)

theorem mapGet_mapRemove_self {l : BTreeMap α β} (k : α)
    (h : keysSorted l) : mapGet k (mapRemove k l) = none := by
  induction l with
  | nil => simp [mapRemove, mapGet]
  | cons p rest ih =>
    obtain ⟨k', v'⟩ := p
    rw [keysSorted, List.pairwise_cons] at h
    obtain ⟨hall, hrest⟩ := h
    by_cases h1 : k = k'
    · rw [mapRemove, if_pos h1]
      subst h1
      exact mapGet_eq_none_of_forall fun q hq => (ne_of_gt (hall q hq))
    · rw [mapRemove, if_neg h1, mapGet, if_neg h1]
      exact ih hrest

theorem mapInsert_nil (k : α) (v : β) : mapInsert k v ([] : BTreeMap α β) = [(k, v)] :=
  rfl

theorem containsKey_mapInsert_self (k : α) (v : β) (l : BTreeMap α β) :
    containsKey k (mapInsert k v l) = true := by
  simp [containsKey, mapGet_mapInsert_self]

theorem containsKey_mapInsert_of {k' : α} {l : BTreeMap α β} (k : α) (v : β)
    (h : containsKey k' l = true) : containsKey k' (mapInsert k v l) = true := by
  by_cases hk : k' = k
  · subst hk
    exact containsKey_mapInsert_self k' v l
  · rw [containsKey, mapGet_mapInsert_ne hk]
    exact h

theorem containsKey_mapInsert_iff (k' k : α) (v : β) (l : BTreeMap α β) :
    containsKey k' (mapInsert k v l) = true ↔ k' = k ∨ containsKey k' l = true := by
  by_cases h : k' = k
  · subst h
    simp [containsKey, mapGet_mapInsert_self]
  · rw [containsKey, mapGet_mapInsert_ne h]
    simp [containsKey, h]

end MapLemmas

namespace AdjacencyList

variable {V : Type u} {E : Type v} [LinearOrder V]

/-! ### Characterizations of the two edge-insertion operations -/

theorem aeu_eq (g : AdjacencyList V E) (a b : Vertex V) (w : E) :
    (g.add_edge_undirected a b w).hash_map =
      mapInsert b
        (mapInsert a w
          ((mapGet b (mapInsert a (mapInsert b w ((mapGet a g.hash_map).getD [])) g.hash_map)).getD []))
        (mapInsert a (mapInsert b w ((mapGet a g.hash_map).getD [])) g.hash_map) := by
  simp only [add_edge_undirected, add_vertex_with_directed_edges]
  cases h1 : mapGet a g.hash_map with
  | none =>
    simp only [h1, Option.getD_none, mapInsert_nil]
    cases h2 : mapGet b (mapInsert a [(b, w)] g.hash_map) with
    | none => simp [h2, mapInsert_nil]
    | some bEdges => simp [h2]
  | some aEdges =>
    simp only [h1, Option.getD_some]
    cases h2 : mapGet b (mapInsert a (mapInsert b w aEdges) g.hash_map) with
    | none => simp [h2, mapInsert_nil]
    | some bEdges => simp [h2]

theorem aed_eq (g : AdjacencyList V E) (a b : Vertex V) (w : E) :
    (g.add_edge_directed a b w).hash_map =
      if (mapGet b (mapInsert a (mapInsert b w ((mapGet a g.hash_map).getD [])) g.hash_map)).isSome
      then mapInsert a (mapInsert b w ((mapGet a g.hash_map).getD [])) g.hash_map
      else mapInsert b [] (mapInsert a (mapInsert b w ((mapGet a g.hash_map).getD [])) g.hash_map) := by
  simp only [add_edge_directed, add_vertex_with_directed_edges]
  cases h1 : mapGet a g.hash_map with
  | none =>
    simp only [h1, Option.getD_none, mapInsert_nil]
    by_cases hb : (mapGet b (mapInsert a [(b, w)] g.hash_map)).isSome = true
    · simp [hb]
    · simp [hb]
  | some aEdges =>
    simp only [h1, Option.getD_some]
    by_cases hb : (mapGet b (mapInsert a (mapInsert b w aEdges) g.hash_map)).isSome = true
    · simp [hb]
    · simp [hb]

theorem edgeWeight_eq_bind (g : AdjacencyList V E) (a b : Vertex V) :
    g.edgeWeight a b = Option.bind (g.get_neighbors a) (fun es => mapGet b es) := by
  rw [edgeWeight]
  cases g.get_neighbors a <;> rfl

theorem aeu_edgeWeight_b_a (g : AdjacencyList V E) (a b : Vertex V) (w : E) :
    (g.add_edge_undirected a b w).edgeWeight b a = some w := by
  rw [edgeWeight, get_neighbors, aeu_eq, mapGet_mapInsert_self]
  exact mapGet_mapInsert_self a w _

theorem aeu_edgeWeight_a_b (g : AdjacencyList V E) (a b : Vertex V) (w : E) :
    (g.add_edge_undirected a b w).edgeWeight a b = some w := by
  by_cases hab : a = b
  · subst hab
    exact aeu_edgeWeight_b_a g a a w
  · rw [edgeWeight, get_neighbors, aeu_eq, mapGet_mapInsert_ne hab, mapGet_mapInsert_self]
    exact mapGet_mapInsert_self b w _

theorem aeu_containsKey_a (g : AdjacencyList V E) (a b : Vertex V) (w : E) :
    containsKey a (g.add_edge_undirected a b w).hash_map = true := by
  rw [aeu_eq, containsKey_mapInsert_iff]
  right
  simp [containsKey, mapGet_mapInsert_self]

theorem aeu_containsKey_b (g : AdjacencyList V E) (a b : Vertex V) (w : E) :
    containsKey b (g.add_edge_undirected a b w).hash_map = true := by
  rw [aeu_eq]
  simp [containsKey, mapGet_mapInsert_self]

theorem avue_eq_oneByOne (g : AdjacencyList V E) (vertex : Vertex V)
    (edges : BTreeMap (Vertex V) E) :
    g.add_vertex_with_undirected_edges vertex edges = addEdgesOneByOne g vertex edges := by
  induction edges generalizing g with
  | nil => rfl
  | cons p rest ih =>
    obtain ⟨n, w⟩ := p
    rw [addEdgesOneByOne, ← ih]
    rfl

theorem aeu_edgeWeight_other (g : AdjacencyList V E) {a b x y : Vertex V} (w : E)
    (hxa : x = a → y ≠ b) (hxb : x = b → y ≠ a) :
    (g.add_edge_undirected a b w).edgeWeight x y = g.edgeWeight x y := by
  rw [edgeWeight_eq_bind, edgeWeight_eq_bind, get_neighbors, get_neighbors, aeu_eq]
  by_cases hb : x = b
  · subst hb
    rw [mapGet_mapInsert_self, Option.some_bind, mapGet_mapInsert_ne (hxb rfl)]
    by_cases ha : x = a
    · subst ha
      rw [mapGet_mapInsert_self, Option.getD_some, mapGet_mapInsert_ne (hxa rfl)]
      cases h1 : mapGet x g.hash_map with
      | none => simp [mapGet]
      | some aEdges => simp
    · rw [mapGet_mapInsert_ne ha]
      cases h1 : mapGet x g.hash_map with
      | none => simp [mapGet]
      | some bEdges => simp
  · rw [mapGet_mapInsert_ne hb]
    by_cases ha : x = a
    · subst ha
      rw [mapGet_mapInsert_self, Option.some_bind, mapGet_mapInsert_ne (hxa rfl)]
      cases h1 : mapGet x g.hash_map with
      | none => simp [mapGet]
      | some aEdges => simp
    · rw [mapGet_mapInsert_ne ha]

theorem aeu_containsKey_mono (g : AdjacencyList V E) {a b x : Vertex V} (w : E)
    (h : containsKey x g.hash_map = true) :
    containsKey x (g.add_edge_undirected a b w).hash_map = true := by
  rw [aeu_eq, containsKey_mapInsert_iff]
  right
  rw [containsKey_mapInsert_iff]
  right
  exact h

theorem oneByOne_preserves_edge (v n : Vertex V) (rest : List (Vertex V × E))
    (hne : ∀ p ∈ rest, p.1 ≠ n) (g : AdjacencyList V E) :
    (addEdgesOneByOne g v rest).edgeWeight v n = g.edgeWeight v n
    ∧ (addEdgesOneByOne g v rest).edgeWeight n v = g.edgeWeight n v := by
  induction rest generalizing g with
  | nil => exact ⟨rfl, rfl⟩
  | cons p rest ih =>
    obtain ⟨n', w'⟩ := p
    have hn' : n' ≠ n := hne (n', w') (List.mem_cons_self _ _)
    rw [addEdgesOneByOne]
    have ihg := ih (fun q hq => hne q (List.mem_cons_of_mem _ hq)) (g.add_edge_undirected v n' w')
    constructor
    · rw [ihg.1]
      exact aeu_edgeWeight_other g w' (fun _ => hn'.symm)
        (fun hv hnv => hn' (hnv ▸ hv.symm))
    · rw [ihg.2]
      exact aeu_edgeWeight_other g w'
        (fun hnv hvn' => hn' (hvn'.symm.trans hnv.symm))
        (fun hnn' => absurd hnn'.symm hn')

theorem oneByOne_containsKey_mono (v : Vertex V) (rest : List (Vertex V × E))
    {x : Vertex V} (g : AdjacencyList V E) (h : containsKey x g.hash_map = true) :
    containsKey x (addEdgesOneByOne g v rest).hash_map = true := by
  induction rest generalizing g with
  | nil => exact h
  | cons p rest ih =>
    obtain ⟨n', w'⟩ := p
    rw [addEdgesOneByOne]
    exact ih _ (aeu_containsKey_mono g w' h)

theorem oneByOne_mirrors (v : Vertex V) :
    ∀ (edges : BTreeMap (Vertex V) E), keysSorted edges →
      ∀ (g : AdjacencyList V E) (n : Vertex V) (w : E), (n, w) ∈ edges →
        (addEdgesOneByOne g v edges).edgeWeight v n = some w
        ∧ (addEdgesOneByOne g v edges).edgeWeight n v = some w
        ∧ containsKey n (addEdgesOneByOne g v edges).hash_map = true := by
  intro edges
  induction edges with
  | nil =>
    intro _ g n w h
    simp at h
  | cons p rest ih =>
    obtain ⟨n0, w0⟩ := p
    intro hE g n w hmem
    rw [keysSorted, List.pairwise_cons] at hE
    obtain ⟨hall, hrest⟩ := hE
    rw [addEdgesOneByOne]
    rcases List.mem_cons.mp hmem with hhead | htail
    · rw [Prod.mk.injEq] at hhead
      obtain ⟨rfl, rfl⟩ := hhead
      have hne : ∀ q ∈ rest, q.1 ≠ n := fun q hq => ne_of_gt (hall q hq)
      obtain ⟨h1, h2⟩ := oneByOne_preserves_edge v n rest hne (g.add_edge_undirected v n w)
      exact ⟨h1.trans (aeu_edgeWeight_a_b g v n w), h2.trans (aeu_edgeWeight_b_a g v n w),
        oneByOne_containsKey_mono v rest _ (aeu_containsKey_b g v n w)⟩
    · exact ih hrest (g.add_edge_undirected v n0 w0) n w htail

/-! ### Lemmas about `remove_vertex` -/

theorem removeCleanup_cons (v n : Vertex V) (ns : List (Vertex V))
    (m : BTreeMap (Vertex V) (BTreeMap (Vertex V) E)) :
    removeCleanup v (n :: ns) m =
      removeCleanup v ns
        (match mapGet n m with
        | some nEdges => mapInsert n (mapRemove v nEdges) m
        | none => m) :=
  rfl

theorem rc_get_not_mem (v : Vertex V) (ns : List (Vertex V)) {x : Vertex V} (hx : x ∉ ns) :
    ∀ m : BTreeMap (Vertex V) (BTreeMap (Vertex V) E),
      mapGet x (removeCleanup v ns m) = mapGet x m := by
  induction ns with
  | nil => intro m; rfl
  | cons n ns ih =>
    intro m
    have hxn : x ≠ n := fun h => hx (h ▸ List.mem_cons_self _ _)
    have hx2 : x ∉ ns := fun h => hx (List.mem_cons_of_mem _ h)
    cases h1 : mapGet n m with
    | none =>
      simp only [removeCleanup_cons, h1]
      exact ih hx2 m
    | some nE =>
      simp only [removeCleanup_cons, h1]
      rw [ih hx2 _]
      exact mapGet_mapInsert_ne hxn _ _

theorem rc_get_mem (v : Vertex V) :
    ∀ ns : List (Vertex V), ns.Nodup → ∀ {x : Vertex V}, x ∈ ns →
      ∀ m : BTreeMap (Vertex V) (BTreeMap (Vertex V) E),
        mapGet x (removeCleanup v ns m) = (mapGet x m).map (mapRemove v) := by
  intro ns
  induction ns with
  | nil =>
    intro _ x hx
    simp at hx
  | cons n ns ih =>
    intro hnd x hx m
    rw [List.nodup_cons] at hnd
    obtain ⟨hn_not, hnd2⟩ := hnd
    rcases List.mem_cons.mp hx with rfl | hxs
    · cases h1 : mapGet x m with
      | none =>
        simp only [removeCleanup_cons, h1]
        rw [rc_get_not_mem v ns hn_not m, h1]
        rfl
      | some nE =>
        simp only [removeCleanup_cons, h1]
        rw [rc_get_not_mem v ns hn_not _, mapGet_mapInsert_self]
        rfl
    · have hxn : x ≠ n := fun h => hn_not (h ▸ hxs)
      cases h1 : mapGet n m with
      | none =>
        simp only [removeCleanup_cons, h1]
        exact ih hnd2 hxs m
      | some nE =>
        simp only [removeCleanup_cons, h1]
        rw [ih hnd2 hxs _, mapGet_mapInsert_ne hxn]

theorem rc_sorted (v : Vertex V) (ns : List (Vertex V)) :
    ∀ m : BTreeMap (Vertex V) (BTreeMap (Vertex V) E),
      keysSorted m → keysSorted (removeCleanup v ns m) := by
  induction ns with
  | nil => intro m h; exact h
  | cons n ns ih =>
    intro m h
    cases h1 : mapGet n m with
    | none =>
      simp only [removeCleanup_cons, h1]
      exact ih m h
    | some nE =>
      simp only [removeCleanup_cons, h1]
      exact ih _ (keysSorted_mapInsert n _ h)

theorem remove_vertex_eq (g : AdjacencyList V E) (v : Vertex V) :
    (g.remove_vertex v).hash_map =
      mapRemove v
        (match mapGet v g.hash_map with
        | some edges => removeCleanup v (edges.map Prod.fst) g.hash_map
        | none => g.hash_map) :=
  rfl

theorem remove_vertex_get_self (g : AdjacencyList V E) (v : Vertex V)
    (h : keysSorted g.hash_map) : (g.remove_vertex v).get_neighbors v = none := by
  rw [get_neighbors, remove_vertex_eq]
  cases h1 : mapGet v g.hash_map with
  | none =>
    simp only
    exact mapGet_mapRemove_self v h
  | some edges =>
    simp only
    exact mapGet_mapRemove_self v (rc_sorted v _ _ h)

/-! ### Lemmas about `into_mermaid` -/

theorem mermaidLine_eq_total [ToString V] (g : AdjacencyList V E) (v n : Vertex V)
    (hq : (g.get_neighbors n).isSome = true) :
    mermaidLine g v n = some (mermaidLineTotal g v n) := by
  obtain ⟨nE, hnE⟩ := Option.isSome_iff_exists.mp hq
  have hmut : g.hasEdge n v = (mapGet v nE).isSome := by
    rw [hasEdge, edgeWeight_eq_bind, hnE, Option.some_bind]
  rw [mermaidLine, mermaidLineTotal, hnE, Option.map_some', hmut]

theorem strConcat_append (l1 l2 : List String) :
    strConcat (l1 ++ l2) = strConcat l1 ++ strConcat l2 := by
  induction l1 with
  | nil => rw [List.nil_append, strConcat, String.empty_append]
  | cons s l1 ih => rw [List.cons_append, strConcat, strConcat, ih, String.append_assoc]

theorem mermaid_inner_foldl [ToString V] (g : AdjacencyList V E) (v : Vertex V)
    (es : List (Vertex V × E)) (h : ∀ q ∈ es, (g.get_neighbors q.1).isSome = true) :
    ∀ s : String,
      es.foldl (fun acc2 q => acc2.bind fun s0 => (mermaidLine g v q.1).map (s0 ++ ·)) (some s)
        = some (s ++ strConcat (es.map fun q => mermaidLineTotal g v q.1)) := by
  induction es with
  | nil =>
    intro s
    simp [strConcat, String.append_empty]
  | cons q es ih =>
    intro s
    have hq := h q (List.mem_cons_self _ _)
    have h2 : ∀ r ∈ es, (g.get_neighbors r.1).isSome = true :=
      fun r hr => h r (List.mem_cons_of_mem _ hr)
    rw [List.foldl_cons, Option.some_bind, mermaidLine_eq_total g v q.1 hq, Option.map_some',
      ih h2 (s ++ mermaidLineTotal g v q.1), List.map_cons, strConcat, String.append_assoc]

theorem mermaid_outer_foldl [ToString V] (g : AdjacencyList V E) :
    ∀ outer : List (Vertex V × BTreeMap (Vertex V) E),
      (∀ p ∈ outer, ∀ q ∈ p.2, (g.get_neighbors q.1).isSome = true) →
      ∀ s : String,
        outer.foldl
          (fun acc p =>
            p.2.foldl (fun acc2 q => acc2.bind fun s0 => (mermaidLine g p.1 q.1).map (s0 ++ ·))
              acc)
          (some s)
        = some (s ++ strConcat
            ((outer.flatMap fun p => p.2.map fun q => (p.1, q.1)).map
              fun r => mermaidLineTotal g r.1 r.2)) := by
  intro outer
  induction outer with
  | nil =>
    intro _ s
    simp [strConcat, String.append_empty]
  | cons p rest ih =>
    intro h s
    rw [List.foldl_cons, mermaid_inner_foldl g p.1 p.2 (h p (List.mem_cons_self _ _)) s,
      ih (fun r hr => h r (List.mem_cons_of_mem _ hr)) _, List.flatMap_cons, List.map_append,
      strConcat_append, List.map_map, String.append_assoc]
    rfl

theorem into_mermaid_eq_of_closed [ToString V] (g : AdjacencyList V E)
    (h : g.edgeClosed) : g.into_mermaid = some (mermaidSpec g) := by
  rw [into_mermaid, mermaidSpec, edgePairs]
  exact mermaid_outer_foldl g g.hash_map
    (fun p hp q hq => h p hp q hq) "flowchart LR"

omit [LinearOrder V] in
theorem edgePairs_length (g : AdjacencyList V E) :
    (edgePairs g).length = (g.hash_map.map fun p => p.2.length).sum := by
  rw [edgePairs]
  simp only [List.length_flatMap]
  congr 1
  apply List.map_congr_left
  intro p _
  simp

theorem edgePairs_sorted (g : AdjacencyList V E) (hWF : g.WF) :
    (edgePairs g).Pairwise vertexPairLt := by
  obtain ⟨hso, hsi⟩ := hWF
  rw [edgePairs]
  revert hso hsi
  generalize g.hash_map = l
  induction l with
  | nil =>
    intro _ _
    simp
  | cons p rest ih =>
    intro hso hsi
    rw [keysSorted, List.pairwise_cons] at hso
    obtain ⟨hall, hrest⟩ := hso
    rw [List.flatMap_cons, List.pairwise_append]
    refine ⟨?_, ih hrest (fun q hq => hsi q (List.mem_cons_of_mem _ hq)), ?_⟩
    · exact List.Pairwise.map _ (fun a b hab => Or.inr ⟨rfl, hab⟩)
        (hsi p (List.mem_cons_self _ _))
    · intro x hx y hy
      obtain ⟨qx, _, rfl⟩ := List.mem_map.mp hx
      obtain ⟨py, hpy, hy2⟩ := List.mem_flatMap.mp hy
      obtain ⟨qy, _, rfl⟩ := List.mem_map.mp hy2
      exact Or.inl (hall py hpy)

/-! ### Preservation of edge-closure -/

theorem ec_empty : (empty : AdjacencyList V E).edgeClosed := by
  intro p hp
  exact absurd hp (List.not_mem_nil p)

theorem ec_add_vertex {g : AdjacencyList V E} (v : Vertex V) (h : g.edgeClosed) :
    (g.add_vertex v).edgeClosed := by
  intro p hp q hq
  rcases mem_mapInsert hp with rfl | hp2
  · exact absurd hq (List.not_mem_nil q)
  · exact containsKey_mapInsert_of v [] (h p hp2 q hq)

theorem ec_add_edge_directed {g : AdjacencyList V E} (a b : Vertex V) (w : E)
    (h : g.edgeClosed) : (g.add_edge_directed a b w).edgeClosed := by
  have key : ∀ q' : Vertex V × E, q' ∈ mapInsert b w ((mapGet a g.hash_map).getD []) →
      q'.1 = b ∨ containsKey q'.1 g.hash_map = true := by
    intro q' hq'
    rcases mem_mapInsert hq' with rfl | hq2
    · exact Or.inl rfl
    · cases h1 : mapGet a g.hash_map with
      | none =>
        rw [h1] at hq2
        simp at hq2
      | some aE =>
        rw [h1] at hq2
        exact Or.inr (h (a, aE) (mem_of_mapGet_eq_some h1) q' hq2)
  intro p hp q hq
  rw [aed_eq] at hp ⊢
  by_cases hb : (mapGet b
      (mapInsert a (mapInsert b w ((mapGet a g.hash_map).getD [])) g.hash_map)).isSome = true
  · rw [if_pos hb] at hp ⊢
    rcases mem_mapInsert hp with rfl | hp2
    · rcases key q hq with hqb | hqg
      · rw [hqb]
        exact hb
      · exact containsKey_mapInsert_of _ _ hqg
    · exact containsKey_mapInsert_of _ _ (h p hp2 q hq)
  · rw [if_neg hb] at hp ⊢
    rcases mem_mapInsert hp with rfl | hp2
    · exact absurd hq (List.not_mem_nil q)
    · rcases mem_mapInsert hp2 with rfl | hp3
      · rcases key q hq with hqb | hqg
        · rw [hqb]
          exact containsKey_mapInsert_self b [] _
        · exact containsKey_mapInsert_of _ _ (containsKey_mapInsert_of _ _ hqg)
      · exact containsKey_mapInsert_of _ _ (containsKey_mapInsert_of _ _ (h p hp3 q hq))

theorem ec_add_edge_undirected {g : AdjacencyList V E} (a b : Vertex V) (w : E)
    (h : g.edgeClosed) : (g.add_edge_undirected a b w).edgeClosed := by
  have keyA : ∀ q' : Vertex V × E, q' ∈ (mapGet a g.hash_map).getD [] →
      containsKey q'.1 g.hash_map = true := by
    intro q' hq'
    cases h1 : mapGet a g.hash_map with
    | none =>
      rw [h1] at hq'
      simp at hq'
    | some aE =>
      rw [h1] at hq'
      exact h (a, aE) (mem_of_mapGet_eq_some h1) q' hq'
  intro p hp q hq
  rw [aeu_eq] at hp ⊢
  rcases mem_mapInsert hp with rfl | hp2
  · rcases mem_mapInsert hq with rfl | hq2
    · exact containsKey_mapInsert_of _ _ (containsKey_mapInsert_self a _ _)
    · cases h2 : mapGet b
          (mapInsert a (mapInsert b w ((mapGet a g.hash_map).getD [])) g.hash_map) with
      | none =>
        rw [h2] at hq2
        simp at hq2
      | some bE =>
        rw [h2] at hq2
        have hbE := mem_of_mapGet_eq_some h2
        rcases mem_mapInsert hbE with heq | hbg
        · rw [Prod.mk.injEq] at heq
          obtain ⟨_, hbE2⟩ := heq
          rw [hbE2] at hq2
          rcases mem_mapInsert hq2 with rfl | hq3
          · exact containsKey_mapInsert_self b _ _
          · exact containsKey_mapInsert_of _ _ (containsKey_mapInsert_of _ _ (keyA q hq3))
        · exact containsKey_mapInsert_of _ _ (containsKey_mapInsert_of _ _ (h (b, bE) hbg q hq2))
  · rcases mem_mapInsert hp2 with rfl | hp3
    · rcases mem_mapInsert hq with rfl | hq3
      · exact containsKey_mapInsert_self b _ _
      · exact containsKey_mapInsert_of _ _ (containsKey_mapInsert_of _ _ (keyA q hq3))
    · exact containsKey_mapInsert_of _ _ (containsKey_mapInsert_of _ _ (h p hp3 q hq))

theorem ec_oneByOne {v : Vertex V} :
    ∀ (es : List (Vertex V × E)) (g : AdjacencyList V E),
      g.edgeClosed → (addEdgesOneByOne g v es).edgeClosed := by
  intro es
  induction es with
  | nil =>
    intro g h
    exact h
  | cons p es ih =>
    intro g h
    obtain ⟨n, w⟩ := p
    rw [addEdgesOneByOne]
    exact ih _ (ec_add_edge_undirected v n w h)

theorem ec_avue {g : AdjacencyList V E} (v : Vertex V) (es : BTreeMap (Vertex V) E)
    (h : g.edgeClosed) : (g.add_vertex_with_undirected_edges v es).edgeClosed := by
  rw [avue_eq_oneByOne]
  exact ec_oneByOne es g h

theorem mem_edgePairs_of_hasEdge (g : AdjacencyList V E) {a b : Vertex V}
    (h : g.hasEdge a b = true) : (a, b) ∈ edgePairs g := by
  rw [hasEdge, edgeWeight_eq_bind, get_neighbors] at h
  cases h1 : mapGet a g.hash_map with
  | none =>
    rw [h1] at h
    simp at h
  | some aE =>
    rw [h1, Option.some_bind] at h
    obtain ⟨w, hw⟩ := Option.isSome_iff_exists.mp h
    rw [edgePairs]
    exact List.mem_flatMap.mpr ⟨(a, aE), mem_of_mapGet_eq_some h1,
      List.mem_map.mpr ⟨(b, w), mem_of_mapGet_eq_some hw, rfl⟩⟩

end AdjacencyList

theorem nodup_keys_of_sorted [LinearOrder α] {l : BTreeMap α β} (h : keysSorted l) :
    (l.map Prod.fst).Nodup :=
  h.map Prod.fst fun _ _ hab => ne_of_lt hab

/-- C2. Removal cleanup scope: after `remove_vertex(v)`, `v` is no longer a
key of the store; every vertex `v` had an outgoing edge to no longer has an
entry keyed by `v`; and a vertex `c` with an edge `c → v`, where `v` had no
edge to `c`, keeps its (now dangling) `c → v` entry with its weight. -/
theorem removal_cleanup_scope {V : Type u} {E : Type v} [LinearOrder V]
    (g : AdjacencyList V E) (v : Vertex V) (hWF : g.WF) :
    (g.remove_vertex v).get_neighbors v = none
    ∧ (∀ n, g.hasEdge v n = true → (g.remove_vertex v).hasEdge n v = false)
    ∧ (∀ c w, g.edgeWeight c v = some w → g.hasEdge v c = false →
        (g.remove_vertex v).edgeWeight c v = some w) := by
  obtain ⟨hso, hsi⟩ := hWF
  refine ⟨AdjacencyList.remove_vertex_get_self g v hso, ?_, ?_⟩
  · intro n hvn
    rw [AdjacencyList.hasEdge, AdjacencyList.edgeWeight_eq_bind,
      AdjacencyList.get_neighbors] at hvn
    cases h1 : mapGet v g.hash_map with
    | none =>
      rw [h1] at hvn
      simp at hvn
    | some vE =>
      rw [h1, Option.some_bind] at hvn
      rw [AdjacencyList.hasEdge, AdjacencyList.edgeWeight_eq_bind,
        AdjacencyList.get_neighbors]
      by_cases hnv : n = v
      · subst hnv
        have hnone := AdjacencyList.remove_vertex_get_self g n hso
        rw [AdjacencyList.get_neighbors] at hnone
        rw [hnone]
        rfl
      · simp only [AdjacencyList.remove_vertex_eq, h1]
        rw [mapGet_mapRemove_ne hnv]
        have hvE : keysSorted vE := hsi (v, vE) (mem_of_mapGet_eq_some h1)
        have hnodup := nodup_keys_of_sorted hvE
        have hnmem : n ∈ vE.map Prod.fst := by
          obtain ⟨w0, hw0⟩ := Option.isSome_iff_exists.mp hvn
          exact List.mem_map_of_mem Prod.fst (mem_of_mapGet_eq_some hw0)
        rw [AdjacencyList.rc_get_mem v (vE.map Prod.fst) hnodup hnmem g.hash_map]
        cases h2 : mapGet n g.hash_map with
        | none => rfl
        | some nE =>
          have hnE : keysSorted nE := hsi (n, nE) (mem_of_mapGet_eq_some h2)
          rw [show Option.map (mapRemove v) (some nE) = some (mapRemove v nE) from rfl,
            Option.some_bind, mapGet_mapRemove_self v hnE]
          rfl
  · intro c w hc1 hc2
    rw [AdjacencyList.edgeWeight_eq_bind, AdjacencyList.get_neighbors] at hc1
    rw [AdjacencyList.hasEdge, AdjacencyList.edgeWeight_eq_bind,
      AdjacencyList.get_neighbors] at hc2
    cases hcE : mapGet c g.hash_map with
    | none =>
      rw [hcE] at hc1
      simp at hc1
    | some cE =>
      rw [hcE, Option.some_bind] at hc1
      have hcv : c ≠ v := by
        intro h
        subst h
        rw [hcE, Option.some_bind, hc1] at hc2
        simp at hc2
      rw [AdjacencyList.edgeWeight_eq_bind, AdjacencyList.get_neighbors]
      cases h1 : mapGet v g.hash_map with
      | none =>
        simp only [AdjacencyList.remove_vertex_eq, h1]
        rw [mapGet_mapRemove_ne hcv, hcE, Option.some_bind]
        exact hc1
      | some vE =>
        rw [h1, Option.some_bind] at hc2
        simp only [AdjacencyList.remove_vertex_eq, h1]
        rw [mapGet_mapRemove_ne hcv]
        have hcns : c ∉ vE.map Prod.fst := by
          intro hmem
          obtain ⟨p, hp, hpc⟩ := List.mem_map.mp hmem
          have hck : containsKey c vE = true := by
            obtain ⟨p1, p2⟩ := p
            cases hpc
            exact containsKey_of_mem hp
          rw [containsKey] at hck
          rw [hck] at hc2
          exact Bool.true_eq_false.mp hc2
        rw [AdjacencyList.rc_get_not_mem v (vE.map Prod.fst) hcns g.hash_map, hcE,
          Option.some_bind]
        exact hc1

/-- Witness for C2: graph with the undirected pair `1 ↔ 2 (5)` and the
directed edge `3 → 1 (7)`; remove vertex `1`. -/
theorem removal_cleanup_scope_witness :
    ((((AdjacencyList.empty : AdjacencyList Nat Nat).add_edge_undirected (Vertex.new 1)
        (Vertex.new 2) 5).add_edge_directed (Vertex.new 3)
          (Vertex.new 1) 7).remove_vertex (Vertex.new 1)).get_neighbors (Vertex.new 1) = none
    ∧ ((((AdjacencyList.empty : AdjacencyList Nat Nat).add_edge_undirected (Vertex.new 1)
        (Vertex.new 2) 5).add_edge_directed (Vertex.new 3)
          (Vertex.new 1) 7).remove_vertex (Vertex.new 1)).hasEdge (Vertex.new 2)
            (Vertex.new 1) = false
    ∧ ((((AdjacencyList.empty : AdjacencyList Nat Nat).add_edge_undirected (Vertex.new 1)
        (Vertex.new 2) 5).add_edge_directed (Vertex.new 3)
          (Vertex.new 1) 7).remove_vertex (Vertex.new 1)).edgeWeight (Vertex.new 3)
            (Vertex.new 1) = some 7 := by
  have h := removal_cleanup_scope
    (((AdjacencyList.empty : AdjacencyList Nat Nat).add_edge_undirected (Vertex.new 1)
      (Vertex.new 2) 5).add_edge_directed (Vertex.new 3) (Vertex.new 1) 7)
    (Vertex.new 1) (by decide)
  exact ⟨h.1, h.2.1 (Vertex.new 2) (by decide), h.2.2 (Vertex.new 3) 7 (by decide) (by decide)⟩

/-- C7. Bulk undirected insertion refines per-edge mirroring:
`add_vertex_with_undirected_edges(v, E)` equals running the undirected-edge
operation once per listed pair, in list (key) order; every listed pair ends
up mirrored in both directions (its neighbor created), and entries of `v`
keyed outside `E` are left untouched (merge, not replace). -/
theorem bulk_undirected_refines {V : Type u} {E : Type v} [LinearOrder V]
    (g : AdjacencyList V E) (v : Vertex V) (edges : BTreeMap (Vertex V) E)
    (hE : keysSorted edges) :
    g.add_vertex_with_undirected_edges v edges = AdjacencyList.addEdgesOneByOne g v edges
    ∧ (∀ n w, (n, w) ∈ edges →
        (g.add_vertex_with_undirected_edges v edges).edgeWeight v n = some w
        ∧ (g.add_vertex_with_undirected_edges v edges).edgeWeight n v = some w
        ∧ containsKey n (g.add_vertex_with_undirected_edges v edges).hash_map = true)
    ∧ (∀ k, k ∉ edges.map Prod.fst →
        (g.add_vertex_with_undirected_edges v edges).edgeWeight v k = g.edgeWeight v k) := by
  refine ⟨AdjacencyList.avue_eq_oneByOne g v edges, ?_, ?_⟩
  · intro n w hmem
    rw [AdjacencyList.avue_eq_oneByOne]
    exact AdjacencyList.oneByOne_mirrors v edges hE g n w hmem
  · intro k hk
    rw [AdjacencyList.avue_eq_oneByOne]
    refine (AdjacencyList.oneByOne_preserves_edge v k edges ?_ g).1
    intro q hq hqk
    exact hk (hqk ▸ List.mem_map_of_mem Prod.fst hq)

/-- Witness for C7: bulk-insert the single undirected pair `3 ↦ 9` at vertex
`1` on a graph where `1` already has the edge `1 → 2 = 5`. -/
theorem bulk_undirected_refines_witness :
    (((AdjacencyList.empty : AdjacencyList Nat Nat).add_edge_undirected (Vertex.new 1)
        (Vertex.new 2) 5).add_vertex_with_undirected_edges (Vertex.new 1)
          [(Vertex.new 3, 9)]).edgeWeight (Vertex.new 1) (Vertex.new 3) = some 9
    ∧ (((AdjacencyList.empty : AdjacencyList Nat Nat).add_edge_undirected (Vertex.new 1)
        (Vertex.new 2) 5).add_vertex_with_undirected_edges (Vertex.new 1)
          [(Vertex.new 3, 9)]).edgeWeight (Vertex.new 3) (Vertex.new 1) = some 9
    ∧ (((AdjacencyList.empty : AdjacencyList Nat Nat).add_edge_undirected (Vertex.new 1)
        (Vertex.new 2) 5).add_vertex_with_undirected_edges (Vertex.new 1)
          [(Vertex.new 3, 9)]).edgeWeight (Vertex.new 1) (Vertex.new 2)
      = ((AdjacencyList.empty : AdjacencyList Nat Nat).add_edge_undirected (Vertex.new 1)
        (Vertex.new 2) 5).edgeWeight (Vertex.new 1) (Vertex.new 2) := by
  have h := bulk_undirected_refines
    ((AdjacencyList.empty : AdjacencyList Nat Nat).add_edge_undirected (Vertex.new 1)
      (Vertex.new 2) 5) (Vertex.new 1) [(Vertex.new 3, 9)] (by decide)
  obtain ⟨h1, h2⟩ := h.2.1 (Vertex.new 3) 9 (by decide)
  exact ⟨h1, h2.1, h.2.2 (Vertex.new 2) (by decide)⟩

/-- C4 counterexample. The claim quantifies over all vertices `a, b`; at
`a = b = 1` on a fresh graph, `add_edge_directed(1, 1, 5)` leaves
`get_neighbors(1)` equal to the one-entry map `1 ↦ 5`, not the empty map the
claim requires for the second endpoint. -/
theorem directed_asymmetry_counterexample :
    ((AdjacencyList.empty : AdjacencyList Nat Nat).add_edge_directed (Vertex.new 1)
        (Vertex.new 1) 5).get_neighbors (Vertex.new 1) = some [(Vertex.new 1, 5)]
    ∧ ((AdjacencyList.empty : AdjacencyList Nat Nat).add_edge_directed (Vertex.new 1)
        (Vertex.new 1) 5).get_neighbors (Vertex.new 1) ≠ some [] := by
  decide

/-- C4 (amended with `a ≠ b`). Directed asymmetry: on a fresh graph,
`add_edge_directed(a, b, w)` with `a ≠ b` leaves `get_neighbors(a)` exactly
the one-entry map `b ↦ w`, and `get_neighbors(b)` the empty map (so `b`
exists but has no reverse entry). -/
theorem directed_asymmetry {V : Type u} {E : Type v} [LinearOrder V]
    (a b : Vertex V) (w : E) (h : a ≠ b) :
    ((AdjacencyList.empty : AdjacencyList V E).add_edge_directed a b w).get_neighbors a
        = some [(b, w)]
    ∧ ((AdjacencyList.empty : AdjacencyList V E).add_edge_directed a b w).get_neighbors b
        = some [] := by
  by_cases hlt : b < a
  · constructor <;>
      simp [AdjacencyList.get_neighbors, AdjacencyList.aed_eq, AdjacencyList.empty,
        mapGet, mapInsert, h, h.symm, hlt]
  · constructor <;>
      simp [AdjacencyList.get_neighbors, AdjacencyList.aed_eq, AdjacencyList.empty,
        mapGet, mapInsert, h, h.symm, hlt]

/-- Witness for C4 at `a = 1`, `b = 2`, `w = 5`. -/
theorem directed_asymmetry_witness :
    ((AdjacencyList.empty : AdjacencyList Nat Nat).add_edge_directed (Vertex.new 1)
        (Vertex.new 2) 5).get_neighbors (Vertex.new 1) = some [(Vertex.new 2, 5)]
    ∧ ((AdjacencyList.empty : AdjacencyList Nat Nat).add_edge_directed (Vertex.new 1)
        (Vertex.new 2) 5).get_neighbors (Vertex.new 2) = some [] :=
  directed_asymmetry (Vertex.new 1) (Vertex.new 2) 5 (by decide)

/-- C5. Overwrite, not merge: two successive
`add_vertex_with_directed_edges(v, ·)` calls leave the edge set of `v` equal
to exactly the second argument, and `add_vertex(v)` on an existing vertex
replaces its edge set with the empty set. -/
theorem overwrite_not_merge {V : Type u} {E : Type v} [LinearOrder V]
    (g : AdjacencyList V E) (v : Vertex V) (E1 E2 : BTreeMap (Vertex V) E)
    (_hv : containsKey v g.hash_map = true) :
    ((g.add_vertex_with_directed_edges v E1).add_vertex_with_directed_edges v E2).get_neighbors v
        = some E2
    ∧ (g.add_vertex v).get_neighbors v = some [] :=
  ⟨mapGet_mapInsert_self v E2 _, mapGet_mapInsert_self v [] _⟩

/-- Witness for C5 on a graph where vertex `1` exists with an edge. -/
theorem overwrite_not_merge_witness :
    ((((AdjacencyList.empty : AdjacencyList Nat Nat).add_vertex_with_directed_edges
          (Vertex.new 1) [(Vertex.new 2, 7)]).add_vertex_with_directed_edges (Vertex.new 1)
            [(Vertex.new 3, 9)]).add_vertex_with_directed_edges (Vertex.new 1)
              [(Vertex.new 4, 1)]).get_neighbors (Vertex.new 1) = some [(Vertex.new 4, 1)]
    ∧ (((AdjacencyList.empty : AdjacencyList Nat Nat).add_vertex_with_directed_edges
          (Vertex.new 1) [(Vertex.new 2, 7)]).add_vertex (Vertex.new 1)).get_neighbors
            (Vertex.new 1) = some [] :=
  overwrite_not_merge
    ((AdjacencyList.empty : AdjacencyList Nat Nat).add_vertex_with_directed_edges
      (Vertex.new 1) [(Vertex.new 2, 7)])
    (Vertex.new 1) [(Vertex.new 3, 9)] [(Vertex.new 4, 1)] (by decide)

/-- C6. Frame of bulk directed insertion: `add_vertex_with_directed_edges(v, E)`
only changes the entry keyed by `v` — other vertices keep their edge sets, a
key is present afterwards iff it is `v` or was present before (so no target
of `E` is created), and no reverse edge toward `v` appears. -/
theorem bulk_directed_frame {V : Type u} {E : Type v} [LinearOrder V]
    (g : AdjacencyList V E) (v : Vertex V) (edges : BTreeMap (Vertex V) E) :
    (∀ u, u ≠ v →
      (g.add_vertex_with_directed_edges v edges).get_neighbors u = g.get_neighbors u)
    ∧ (∀ k, containsKey k (g.add_vertex_with_directed_edges v edges).hash_map = true ↔
        (k = v ∨ containsKey k g.hash_map = true))
    ∧ (∀ t wt, (t, wt) ∈ edges → t ≠ v → containsKey t g.hash_map = false →
        containsKey t (g.add_vertex_with_directed_edges v edges).hash_map = false)
    ∧ (∀ u, u ≠ v →
        (g.add_vertex_with_directed_edges v edges).edgeWeight u v = g.edgeWeight u v) := by
  refine ⟨?_, ?_, ?_, ?_⟩
  · intro u hu
    exact mapGet_mapInsert_ne hu edges g.hash_map
  · intro k
    exact containsKey_mapInsert_iff k v edges g.hash_map
  · intro t wt _ ht hcont
    rcases Bool.eq_false_or_eq_true
        (containsKey t (g.add_vertex_with_directed_edges v edges).hash_map) with h | h
    · rcases (containsKey_mapInsert_iff t v edges g.hash_map).mp h with h' | h'
      · exact absurd h' ht
      · rw [h'] at hcont
        exact absurd hcont (by simp)
    · exact h
  · intro u hu
    rw [AdjacencyList.edgeWeight, AdjacencyList.edgeWeight, AdjacencyList.get_neighbors,
      AdjacencyList.get_neighbors]
    rw [show (g.add_vertex_with_directed_edges v edges).hash_map
        = mapInsert v edges g.hash_map from rfl]
    rw [mapGet_mapInsert_ne hu]

/-- Witness for C6 on a graph with an unrelated vertex `3`, giving vertex
`1` the single directed edge `1 → 2 = 5`. -/
theorem bulk_directed_frame_witness :
    (((AdjacencyList.empty : AdjacencyList Nat Nat).add_vertex
        (Vertex.new 3)).add_vertex_with_directed_edges (Vertex.new 1)
          [(Vertex.new 2, 5)]).get_neighbors (Vertex.new 3)
      = ((AdjacencyList.empty : AdjacencyList Nat Nat).add_vertex
        (Vertex.new 3)).get_neighbors (Vertex.new 3)
    ∧ containsKey (Vertex.new 2)
        (((AdjacencyList.empty : AdjacencyList Nat Nat).add_vertex
          (Vertex.new 3)).add_vertex_with_directed_edges (Vertex.new 1)
            [(Vertex.new 2, 5)]).hash_map = false
    ∧ (((AdjacencyList.empty : AdjacencyList Nat Nat).add_vertex
        (Vertex.new 3)).add_vertex_with_directed_edges (Vertex.new 1)
          [(Vertex.new 2, 5)]).edgeWeight (Vertex.new 3) (Vertex.new 1)
      = ((AdjacencyList.empty : AdjacencyList Nat Nat).add_vertex
        (Vertex.new 3)).edgeWeight (Vertex.new 3) (Vertex.new 1) := by
  refine ⟨?_, ?_, ?_⟩
  · exact (bulk_directed_frame ((AdjacencyList.empty : AdjacencyList Nat Nat).add_vertex
      (Vertex.new 3)) (Vertex.new 1) [(Vertex.new 2, 5)]).1 (Vertex.new 3) (by decide)
  · exact (bulk_directed_frame ((AdjacencyList.empty : AdjacencyList Nat Nat).add_vertex
      (Vertex.new 3)) (Vertex.new 1) [(Vertex.new 2, 5)]).2.2.1 (Vertex.new 2) 5 (by decide)
      (by decide) (by decide)
  · exact (bulk_directed_frame ((AdjacencyList.empty : AdjacencyList Nat Nat).add_vertex
      (Vertex.new 3)) (Vertex.new 1) [(Vertex.new 2, 5)]).2.2.2 (Vertex.new 3) (by decide)

/-- C8. Toggle pairing: two consecutive `toggle_vertex(v, E)` calls restore
`v`'s presence in the store; a single call removes `v` (ignoring `E`) when it
is present, and inserts it with edge set exactly `E` when it is absent. -/
theorem toggle_pairing {V : Type u} {E : Type v} [LinearOrder V]
    (g : AdjacencyList V E) (v : Vertex V) (edges : BTreeMap (Vertex V) E)
    (hWF : g.WF) :
    containsKey v ((g.toggle_vertex v edges).toggle_vertex v edges).hash_map
        = containsKey v g.hash_map
    ∧ (containsKey v g.hash_map = true → g.toggle_vertex v edges = g.remove_vertex v)
    ∧ (containsKey v g.hash_map = false →
        g.toggle_vertex v edges = g.add_vertex_with_directed_edges v edges
        ∧ (g.toggle_vertex v edges).get_neighbors v = some edges) := by
  obtain ⟨hso, _⟩ := hWF
  by_cases hv : containsKey v g.hash_map = true
  · have ht1 : g.toggle_vertex v edges = g.remove_vertex v := by
      rw [AdjacencyList.toggle_vertex, if_pos hv]
    have habs : containsKey v (g.remove_vertex v).hash_map = false := by
      have h := AdjacencyList.remove_vertex_get_self g v hso
      rw [AdjacencyList.get_neighbors] at h
      rw [containsKey, h]
      rfl
    have ht2 : (g.remove_vertex v).toggle_vertex v edges
        = (g.remove_vertex v).add_vertex_with_directed_edges v edges := by
      rw [AdjacencyList.toggle_vertex, if_neg (by simp [habs])]
    refine ⟨?_, fun _ => ht1, fun hf => absurd hv (by simp [hf])⟩
    rw [ht1, ht2, hv]
    exact containsKey_mapInsert_self v edges _
  · have hf : containsKey v g.hash_map = false := Bool.not_eq_true _ ▸ hv
    have ht1 : g.toggle_vertex v edges = g.add_vertex_with_directed_edges v edges := by
      rw [AdjacencyList.toggle_vertex, if_neg hv]
    have hpres : containsKey v (g.add_vertex_with_directed_edges v edges).hash_map = true :=
      containsKey_mapInsert_self v edges _
    have ht2 : (g.add_vertex_with_directed_edges v edges).toggle_vertex v edges
        = (g.add_vertex_with_directed_edges v edges).remove_vertex v := by
      rw [AdjacencyList.toggle_vertex, if_pos hpres]
    refine ⟨?_, fun ht => absurd ht hv, fun _ =>
      ⟨ht1, by rw [ht1]; exact mapGet_mapInsert_self v edges g.hash_map⟩⟩
    rw [ht1, ht2, hf]
    have hso2 : keysSorted (g.add_vertex_with_directed_edges v edges).hash_map :=
      keysSorted_mapInsert v edges hso
    have h := AdjacencyList.remove_vertex_get_self
      (g.add_vertex_with_directed_edges v edges) v hso2
    rw [AdjacencyList.get_neighbors] at h
    rw [containsKey, h]
    rfl

/-- Witness for C8: toggling vertex `1` twice on a one-vertex graph
containing `1`, and on the empty graph. -/
theorem toggle_pairing_witness :
    containsKey (Vertex.new 1)
        ((((AdjacencyList.empty : AdjacencyList Nat Nat).add_vertex
          (Vertex.new 1)).toggle_vertex (Vertex.new 1) []).toggle_vertex
            (Vertex.new 1) []).hash_map
      = containsKey (Vertex.new 1)
          ((AdjacencyList.empty : AdjacencyList Nat Nat).add_vertex (Vertex.new 1)).hash_map
    ∧ ((AdjacencyList.empty : AdjacencyList Nat Nat).toggle_vertex (Vertex.new 1)
        [(Vertex.new 2, 5)]).get_neighbors (Vertex.new 1) = some [(Vertex.new 2, 5)] := by
  have h1 := toggle_pairing ((AdjacencyList.empty : AdjacencyList Nat Nat).add_vertex
    (Vertex.new 1)) (Vertex.new 1) [] (by decide)
  have h2 := toggle_pairing (AdjacencyList.empty : AdjacencyList Nat Nat) (Vertex.new 1)
    [(Vertex.new 2, 5)] (by decide)
  exact ⟨h1.1, (h2.2.2 (by decide)).2⟩

/-- C1. Undirected mirroring: in every graph state, after
`add_edge_undirected(a, b, w)` the edge set of `a` contains `b ↦ w`, the edge
set of `b` contains `a ↦ w`, and both endpoints are keys of the store
(created if previously absent).  Each of the two entries stores its own copy
of the weight value. -/
theorem undirected_mirroring {V : Type u} {E : Type v} [LinearOrder V]
    (g : AdjacencyList V E) (a b : Vertex V) (w : E) :
    (g.add_edge_undirected a b w).edgeWeight a b = some w
    ∧ (g.add_edge_undirected a b w).edgeWeight b a = some w
    ∧ containsKey a (g.add_edge_undirected a b w).hash_map = true
    ∧ containsKey b (g.add_edge_undirected a b w).hash_map = true :=
  ⟨AdjacencyList.aeu_edgeWeight_a_b g a b w, AdjacencyList.aeu_edgeWeight_b_a g a b w,
    AdjacencyList.aeu_containsKey_a g a b w, AdjacencyList.aeu_containsKey_b g a b w⟩

theorem runOps_closed {V : Type u} {E : Type v} [LinearOrder V]
    (ops : List (SafeOp V E)) : (runOps ops).edgeClosed := by
  suffices h : ∀ (ops : List (SafeOp V E)) (g : AdjacencyList V E),
      g.edgeClosed → (ops.foldl applyOp g).edgeClosed from
    h ops AdjacencyList.empty AdjacencyList.ec_empty
  intro ops
  induction ops with
  | nil =>
    intro g h
    exact h
  | cons op ops ih =>
    intro g h
    rw [List.foldl_cons]
    apply ih
    cases op with
    | addVertex v => exact AdjacencyList.ec_add_vertex v h
    | addEdgeDirected a b w => exact AdjacencyList.ec_add_edge_directed a b w h
    | addEdgeUndirected a b w => exact AdjacencyList.ec_add_edge_undirected a b w h
    | addVertexWithUndirectedEdges v es => exact AdjacencyList.ec_avue v es h

/-- C3 counterexample. The claim quantifies over every graph state, but on
the well-formed store holding exactly the entry `1 ↦ (2 ↦ 5)` (vertex `2`
is absent),
`into_mermaid` hits the failing `unwrap` (modelled as `none`) and emits no
string at all, instead of one line for the one stored edge entry. -/
theorem diagram_export_counterexample :
    (AdjacencyList.edgePairs
        (AdjacencyList.new [(Vertex.new 1, [(Vertex.new 2, 5)])] : AdjacencyList Nat Nat)).length
      = 1
    ∧ (AdjacencyList.new [(Vertex.new 1, [(Vertex.new 2, 5)])] : AdjacencyList Nat Nat).WF
    ∧ (AdjacencyList.new [(Vertex.new 1, [(Vertex.new 2, 5)])] :
        AdjacencyList Nat Nat).into_mermaid = none := by
  refine ⟨by decide, by decide, by decide⟩

/-- C3 (amended: restricted to graph states in which every stored edge target
is itself a vertex, the condition under which the `unwrap` in `into_mermaid`
cannot fail).  Diagram export: `into_mermaid` returns the header followed by
exactly one line per stored directed edge entry — lines in the store's sorted
outer/inner key order, each rendered with the bidirectional connector exactly
when the target's own edge set has an entry keyed by the source (so a mutual
pair yields two such lines, one from each side). -/
theorem diagram_export {V : Type u} {E : Type v} [LinearOrder V] [ToString V]
    (g : AdjacencyList V E) (hWF : g.WF) (hcl : g.edgeClosed) :
    g.into_mermaid = some (AdjacencyList.mermaidSpec g)
    ∧ (AdjacencyList.edgePairs g).length = (g.hash_map.map fun p => p.2.length).sum
    ∧ (AdjacencyList.edgePairs g).Pairwise AdjacencyList.vertexPairLt
    ∧ (∀ a b, g.hasEdge a b = true → g.hasEdge b a = true →
        (a, b) ∈ AdjacencyList.edgePairs g ∧ (b, a) ∈ AdjacencyList.edgePairs g) :=
  ⟨AdjacencyList.into_mermaid_eq_of_closed g hcl, AdjacencyList.edgePairs_length g,
    AdjacencyList.edgePairs_sorted g hWF,
    fun _ _ hab hba => ⟨AdjacencyList.mem_edgePairs_of_hasEdge g hab,
      AdjacencyList.mem_edgePairs_of_hasEdge g hba⟩⟩

/-- Witness for C3 on the spec's scenario graph. -/
theorem diagram_export_witness :
    scenarioGraph.into_mermaid = some (AdjacencyList.mermaidSpec scenarioGraph)
    ∧ (AdjacencyList.edgePairs scenarioGraph).length
        = (scenarioGraph.hash_map.map fun p => p.2.length).sum
    ∧ (AdjacencyList.edgePairs scenarioGraph).Pairwise AdjacencyList.vertexPairLt
    ∧ (Vertex.new 1, Vertex.new 2) ∈ AdjacencyList.edgePairs scenarioGraph
    ∧ (Vertex.new 2, Vertex.new 1) ∈ AdjacencyList.edgePairs scenarioGraph := by
  have h := diagram_export scenarioGraph (by decide) (by decide)
  have hm := h.2.2.2 (Vertex.new 1) (Vertex.new 2) (by decide) (by decide)
  exact ⟨h.1, h.2.1, h.2.2.1, hm.1, hm.2⟩

/-- C9. End-to-end scenario: vertices `1, 2, 3`, then
`add_edge_undirected(1, 2, 5)`, then `add_edge_directed(2, 3, 7)`: the
neighbor maps are `1 ↦ (2: 5)`, `2 ↦ (1: 5, 3: 7)`, `3 ↦ ()`,
and the export has one bidirectional line per direction of the `1`/`2` pair
and one directed line `2 --> 3`. -/
theorem scenario_end_to_end :
    scenarioGraph.get_neighbors (Vertex.new 1) = some [(Vertex.new 2, 5)]
    ∧ scenarioGraph.get_neighbors (Vertex.new 2)
        = some [(Vertex.new 1, 5), (Vertex.new 3, 7)]
    ∧ scenarioGraph.get_neighbors (Vertex.new 3) = some []
    ∧ scenarioGraph.into_mermaid
        = some "flowchart LR\n    1 --- 2\n    2 --- 1\n    2 --> 3" := by
  refine ⟨by decide, by decide, by decide, by decide⟩

/-- C10 counterexample. The claim covers all public mutation calls, but a
single `add_vertex_with_directed_edges(1, (2 ↦ 5))` from the empty graph
stores the edge `1 → 2` without creating vertex `2`, and `into_mermaid` on
the resulting state hits the failing `unwrap` (modelled as `none`). -/
theorem export_total_counterexample :
    ((AdjacencyList.empty : AdjacencyList Nat Nat).add_vertex_with_directed_edges
        (Vertex.new 1) [(Vertex.new 2, 5)]).hasEdge (Vertex.new 1) (Vertex.new 2) = true
    ∧ containsKey (Vertex.new 2)
        ((AdjacencyList.empty : AdjacencyList Nat Nat).add_vertex_with_directed_edges
          (Vertex.new 1) [(Vertex.new 2, 5)]).hash_map = false
    ∧ ((AdjacencyList.empty : AdjacencyList Nat Nat).add_vertex_with_directed_edges
        (Vertex.new 1) [(Vertex.new 2, 5)]).into_mermaid = none := by
  refine ⟨by decide, by decide, by decide⟩

/-- C10 (amended: restricted to the mutation operations that never store an
edge whose target is missing — `add_vertex`, `add_edge_directed`,
`add_edge_undirected`, `add_vertex_with_undirected_edges`; the excluded
`add_vertex_with_directed_edges`, `toggle_vertex` and `remove_vertex` can
each leave a dangling edge target).  Every state reachable from the empty
graph by those operations is edge-closed, so every per-neighbor lookup in
`into_mermaid` succeeds and it returns a string. -/
theorem export_total_on_closed_ops {V : Type u} {E : Type v} [LinearOrder V] [ToString V]
    (ops : List (SafeOp V E)) :
    (runOps ops).edgeClosed
    ∧ (runOps ops).into_mermaid = some (AdjacencyList.mermaidSpec (runOps ops)) :=
  ⟨runOps_closed ops,
    AdjacencyList.into_mermaid_eq_of_closed (runOps ops) (runOps_closed ops)⟩
